import Mathlib

/-!
Verification of the heuristic key-value extractor `parse_key_values`
from `app.py` of the TribalEYE repository.

The extractor is embedded shallowly: Python strings become `String`
(whose kernel representation is a list of characters), the Python
`dict` becomes an insertion-ordered association list `Dict`, and the
single regular expression of pass 1 is embedded as an explicit
backtracking matcher with the same match semantics on the inputs the
extractor feeds it.
-/

namespace TribalEye

/-- Whitespace in the sense of Python's `str.strip` / `re` `\s`
(restricted to the ASCII/Latin-1 characters that can occur here). -/
def isSpace (c : Char) : Bool :=
  c = ' ' || c = '\t' || c = '\n' || c = '\r' || c = '\x0b' || c = '\x0c' ||
  c = '\x1c' || c = '\x1d' || c = '\x1e' || c = '\x1f' || c = '\x85' || c = '\xa0'

/-- Core loop of Python `str.splitlines`: each line terminator
(`\r\n`, `\n`, `\r`, `\x0b`, `\x0c`, `\x1c`, `\x1d`, `\x1e`, `\x85`,
` `, ` `) ends a segment; a final segment is kept only if
non-empty. -/
def splitlinesGo : List Char → List Char → List (List Char)
  | [], acc => if acc.isEmpty then [] else [acc.reverse]
  | '\r' :: '\n' :: rest, acc => acc.reverse :: splitlinesGo rest []
  | '\r' :: rest, acc => acc.reverse :: splitlinesGo rest []
  | '\n' :: rest, acc => acc.reverse :: splitlinesGo rest []
  | '\x0b' :: rest, acc => acc.reverse :: splitlinesGo rest []
  | '\x0c' :: rest, acc => acc.reverse :: splitlinesGo rest []
  | '\x1c' :: rest, acc => acc.reverse :: splitlinesGo rest []
  | '\x1d' :: rest, acc => acc.reverse :: splitlinesGo rest []
  | '\x1e' :: rest, acc => acc.reverse :: splitlinesGo rest []
  | '\x85' :: rest, acc => acc.reverse :: splitlinesGo rest []
  | ' ' :: rest, acc => acc.reverse :: splitlinesGo rest []
  | ' ' :: rest, acc => acc.reverse :: splitlinesGo rest []
  | c :: rest, acc => splitlinesGo rest (c :: acc)

/-- Python `text.splitlines()` on the character list of the text. -/
def pySplitlines (cs : List Char) : List (List Char) :=
  splitlinesGo cs []

/-- Python `str.strip()`: remove leading and trailing whitespace. -/
def pyStripList (cs : List Char) : List Char :=
  (((cs.dropWhile isSpace).reverse.dropWhile isSpace)).reverse

/-- `str.strip()` at the `String` level. -/
def pyStrip (s : String) : String :=
  String.mk (pyStripList s.data)

/-- Python `str.lower()` (ASCII case folding, which is all the source
dictionaries need). -/
def pyLower (s : String) : String :=
  String.mk (s.data.map Char.toLower)

/-- `lines = [l.strip() for l in text.splitlines() if l.strip()]`
(app.py line 67): split, strip each line, drop the ones that are empty
after stripping. -/
def pyLines (text : String) : List String :=
  ((pySplitlines text.data).map (fun cs => String.mk (pyStripList cs))).filter
    (fun l => !(l == ""))

/-- The character class `[A-Za-z0-9\s\/\-\(\)\.]` of the pass-1 regex
(app.py line 70). -/
def isKeyChar (c : Char) : Bool :=
  ('A' ≤ c && c ≤ 'Z') || ('a' ≤ c && c ≤ 'z') || ('0' ≤ c && c ≤ '9') ||
  isSpace c || c = '/' || c = '-' || c = '(' || c = ')' || c = '.'

/-- Tail `\s*(.+)$` of the pass-1 regex, matched at position `pos`:
greedily skip whitespace, then capture at least one character up to the
end of the line.  When everything after `pos` is whitespace the greedy
`\s*` backtracks and `(.+)` captures the final whitespace character. -/
def afterSep (cs : List Char) (pos : Nat) : Option (List Char) :=
  let rest := cs.drop pos
  if rest.isEmpty then none
  else
    let r := rest.dropWhile isSpace
    if r.isEmpty then some (rest.drop (rest.length - 1)) else some r

/-- One backtracking attempt of the pass-1 regex with the lazy group
`([A-Za-z0-9\s\/\-\(\)\.]{2,80}?)` bound to exactly `k` characters
starting at position `w`: after the key, `\s*` greedily skips
whitespace, the next character must be `:` or `-`, and the rest of the
line must match `\s*(.+)$`.  Returns the two capture groups. -/
def tryKeyLen (cs : List Char) (w k : Nat) : Option (List Char × List Char) :=
  let keyPart := (cs.drop w).take k
  if keyPart.length = k && keyPart.all isKeyChar then
    let m := w + k + ((cs.drop (w + k)).takeWhile isSpace).length
    match cs.get? m with
    | some c =>
        if c = ':' || c = '-' then
          (afterSep cs (m + 1)).map (fun g2 => (keyPart, g2))
        else none
    | none => none
  else none

/-- The lazy quantifier `{2,80}?`: try key lengths 2, 3, ..., 80 in
order and keep the first complete match. -/
def matchAtW (cs : List Char) (w : Nat) : Option (List Char × List Char) :=
  ((List.range 79).map (· + 2)).findSome? (tryKeyLen cs w)

/-- `kv_re.match(ln)` for `kv_re = ^\s*([A-Za-z0-9\s\/\-\(\)\.]{2,80}?)\s*[:\-]\s*(.+)$`
(app.py line 70), followed by `.strip()` of both captured groups
(app.py lines 74-75).  The leading greedy `\s*` tries the longest
whitespace prefix first and backtracks one character at a time. -/
def pass1Line (ln : String) : Option (String × String) :=
  let cs := ln.data
  let wmax := (cs.takeWhile isSpace).length
  ((List.range (wmax + 1)).reverse).findSome? (fun w =>
    (matchAtW cs w).map (fun g =>
      (String.mk (pyStripList g.1), String.mk (pyStripList g.2))))

/-- Insertion-ordered string-to-string map, the embedding of the
Python `dict` `pairs`. -/
abbrev Dict := List (String × String)

/-- `pairs[k] = v`: update the entry holding key `k` in place, or
append a new entry at the end. -/
def dictInsert : Dict → String → String → Dict
  | [], k, v => [(k, v)]
  | p :: rest, k, v =>
      if p.1 == k then (k, v) :: rest else p :: dictInsert rest k v

/-- `pairs.get(k)`: the value stored under `k`, if any. -/
def dictGet? (m : Dict) (k : String) : Option String :=
  (m.find? (fun p => p.1 == k)).map (fun p => p.2)

/-- Pass 1 (app.py lines 71-76): run the key-value regex over every
line, inserting stripped key and value on every match. -/
def pass1 (lines : List String) (m : Dict) : Dict :=
  lines.foldl (fun m ln =>
    match pass1Line ln with
    | some kv => dictInsert m kv.1 kv.2
    | none => m) m

/-- The fixed heading dictionary of pass 2 (app.py lines 83-88), in
source order. -/
def headings : List String :=
  ["name of the claimant", "name of the claimant(s)", "name of the spouse",
   "name of father", "address", "village", "gram panchayat", "tehsil", "district",
   "total area claimed", "survey numbers", "gps coordinates", "date of submission",
   "tribe", "family members", "signature"]

/-- Does `needle` occur contiguously in `hay` starting at position `p`? -/
def substrAt (needle hay : List Char) (p : Nat) : Bool :=
  ((hay.drop p).take needle.length) == needle

/-- Python `needle in hay` on strings: contiguous substring test. -/
def containsSub (needle hay : List Char) : Bool :=
  (List.range (hay.length + 1)).any (substrAt needle hay)

/-- The lookahead of pass 2 (app.py lines 92-96): among lines `i+1`
through `i+5` (bounded by the number of lines), the first one with
length strictly between 0 and 200. -/
def firstCand (lines : List String) (i : Nat) : Option String :=
  ((lines.drop (i + 1)).take 5).find? (fun c => 0 < c.length && c.length < 200)

/-- The body of pass 2 for line `ln` at index `i` (app.py lines 80-96):
if the line length is strictly between 3 and 120, then for every
heading phrase contained in the lowercased line, store the first
lookahead candidate (if any) under the full line text. -/
def pass2Step (lines : List String) (m : Dict) (i : Nat) (ln : String) : Dict :=
  if 3 < ln.length && ln.length < 120 then
    headings.foldl (fun m h =>
      if containsSub h.data (pyLower ln).data then
        match firstCand lines i with
        | some c => dictInsert m ln c
        | none => m
      else m) m
  else m

/-- Pass 2 (app.py lines 79-96): `for i, ln in enumerate(lines)`. -/
def pass2 (lines : List String) (m : Dict) : Dict :=
  lines.enum.foldl (fun m p => pass2Step lines m p.1 p.2) m

/-- Word characters for the `\b` boundaries of the pass-3 regex
(Python `\w`, ASCII part). -/
def isWordChar (c : Char) : Bool :=
  ('A' ≤ c && c ≤ 'Z') || ('a' ≤ c && c ≤ 'z') || ('0' ≤ c && c ≤ '9') || c = '_'

/-- The keyword alternatives of the pass-3 regex (app.py line 102). -/
def keywords : List String :=
  ["age", "hectares", "survey", "total area", "gps", "date"]

/-- Does `kw` occur in `l` starting at `p`, with a word boundary on
each side? -/
def wordBoundedAt (l kw : List Char) (p : Nat) : Bool :=
  substrAt kw l p &&
  (p == 0 || !(isWordChar (l.getD (p - 1) ' '))) &&
  (p + kw.length == l.length || !(isWordChar (l.getD (p + kw.length) ' ')))

/-- `re.search(r'\b(age|hectares|survey|total area|gps|date)\b', ln, re.I)`
(app.py line 102): some keyword occurs somewhere in the line with word
boundaries, case-insensitively. -/
def kwSearch (ln : String) : Bool :=
  let l := (pyLower ln).data
  keywords.any (fun kw =>
    (List.range (l.length + 1)).any (fun p => wordBoundedAt l kw.data p))

/-- Python `sep.join(ls)`: concatenate the strings of `ls` with `sep`
between consecutive elements. -/
def pyJoin (sep : String) : List String → String
  | [] => ""
  | [a] => a
  | a :: rest => a ++ sep ++ pyJoin sep rest

/-- Pass 3 (app.py lines 100-105): collect the keyword-matching lines
among the first 200 and join them under `misc`; empty map if none. -/
def pass3 (lines : List String) : Dict :=
  let misc := (lines.take 200).filter kwSearch
  if misc.isEmpty then [] else [("misc", pyJoin "; " misc)]

/-- `parse_key_values` (app.py lines 65-107): preprocessing, pass 1 and
pass 2 mutating the same map, and pass 3 gated on the map being empty. -/
def parse_key_values (text : String) : Dict :=
  let lines := pyLines text
  let m1 := pass1 lines []
  let m2 := pass2 lines m1
  if m2.isEmpty then pass3 lines else m2

/-! ### Specification-side vocabulary used by the theorems -/

/-- Apply a sequence of insertions to a map. -/
def applyAll (m : Dict) (seq : List (String × String)) : Dict :=
  seq.foldl (fun m p => dictInsert m p.1 p.2) m

/-- The value of the last pair of `seq` whose key is `k`, if any. -/
def lastVal (seq : List (String × String)) (k : String) : Option String :=
  (seq.reverse.find? (fun p => p.1 == k)).map (fun p => p.2)

/-- The insertions that pass 2 performs for line `ln` at index `i`:
one `(ln, candidate)` pair per heading phrase contained in the
lowercased line, provided the lookahead finds a candidate. -/
def headingInserts (lines : List String) (i : Nat) (ln : String) :
    List (String × String) :=
  if 3 < ln.length && ln.length < 120 then
    headings.flatMap (fun h =>
      if containsSub h.data (pyLower ln).data then
        match firstCand lines i with
        | some c => [(ln, c)]
        | none => []
      else [])
  else []

/-- The full insertion sequence of pass 2. -/
def pass2Seq (lines : List String) : List (String × String) :=
  lines.enum.flatMap (fun p => headingInserts lines p.1 p.2)

/-- The body of pass 2 as the spec words it: only the first heading
phrase of the dictionary that the lowercased line contains is used. -/
def pass2StepFirstMatch (lines : List String) (m : Dict) (i : Nat) (ln : String) :
    Dict :=
  if 3 < ln.length && ln.length < 120 then
    match headings.find? (fun h => containsSub h.data (pyLower ln).data) with
    | some _ =>
        match firstCand lines i with
        | some c => dictInsert m ln c
        | none => m
    | none => m
  else m

/-- Pass 2 as the spec words it (first matching heading phrase only). -/
def pass2FirstMatch (lines : List String) (m : Dict) : Dict :=
  lines.enum.foldl (fun m p => pass2StepFirstMatch lines m p.1 p.2) m

/-- A string is well-trimmed when it is non-empty and stripping is the
identity on it (no leading or trailing whitespace). -/
def wellTrimmed (s : String) : Prop :=
  s ≠ "" ∧ pyStrip s = s

/-! ### Dictionary lemmas -/

theorem dictGet?_insert (m : Dict) (k v k' : String) :
    dictGet? (dictInsert m k v) k' = if k' = k then some v else dictGet? m k' := by
  induction m with
  | nil =>
      by_cases h : k' = k
      · subst h; simp [dictInsert, dictGet?, List.find?_cons, beq_iff_eq]
      · have h' : ¬ k = k' := fun he => h he.symm
        simp [dictInsert, dictGet?, List.find?_cons, beq_iff_eq, h, h']
  | cons p rest ih =>
      by_cases hpk : p.1 = k
      · by_cases h : k' = k
        · subst h; simp [dictInsert, dictGet?, List.find?_cons, beq_iff_eq, hpk]
        · have h2 : ¬ p.1 = k' := fun he => h (by rw [← he, hpk])
          have h3 : ¬ k = k' := fun he => h he.symm
          simp [dictInsert, dictGet?, List.find?_cons, beq_iff_eq, hpk, h, h2, h3]
      · by_cases hpk' : p.1 = k'
        · have h : ¬ k' = k := fun he => hpk (by rw [hpk', he])
          simp [dictInsert, dictGet?, List.find?_cons, beq_iff_eq, hpk, hpk', h]
        · have e1 : dictInsert (p :: rest) k v = p :: dictInsert rest k v := by
            simp [dictInsert, beq_iff_eq, hpk]
          have e2 : ∀ X, dictGet? (p :: X) k' = dictGet? X k' := fun X => by
            simp [dictGet?, List.find?_cons, beq_iff_eq, hpk']
          rw [e1, e2 (dictInsert rest k v), ih, e2 rest]

theorem applyAll_nil (m : Dict) : applyAll m [] = m := rfl

theorem applyAll_cons (m : Dict) (p : String × String) (seq : List (String × String)) :
    applyAll m (p :: seq) = applyAll (dictInsert m p.1 p.2) seq := rfl

theorem applyAll_append (m : Dict) (s t : List (String × String)) :
    applyAll m (s ++ t) = applyAll (applyAll m s) t := by
  simp [applyAll, List.foldl_append]

theorem lastVal_cons (p : String × String) (rest : List (String × String)) (k : String) :
    lastVal (p :: rest) k =
      (lastVal rest k).or (if p.1 = k then some p.2 else none) := by
  cases hfind : rest.reverse.find? (fun q => q.1 == k) with
  | some q =>
      simp [lastVal, List.reverse_cons, List.find?_append, hfind, Option.or]
  | none =>
      by_cases h : p.1 = k
      · simp [lastVal, List.reverse_cons, List.find?_append, hfind,
          List.find?_cons, beq_iff_eq, h, Option.or]
      · simp [lastVal, List.reverse_cons, List.find?_append, hfind,
          List.find?_cons, beq_iff_eq, h, Option.or]

theorem dictGet?_applyAll (seq : List (String × String)) (m : Dict) (k : String) :
    dictGet? (applyAll m seq) k = (lastVal seq k).or (dictGet? m k) := by
  induction seq generalizing m with
  | nil => simp [applyAll, lastVal, Option.or]
  | cons p rest ih =>
      rw [applyAll_cons, ih, lastVal_cons, dictGet?_insert, Option.or_assoc]
      cases hl : lastVal rest k with
      | some v => simp [Option.or]
      | none =>
          by_cases h : p.1 = k
          · simp [h, Option.or]
          · have h' : ¬ k = p.1 := fun he => h he.symm
            simp [h, h', Option.or]

theorem pass1_eq_applyAll (lines : List String) (m : Dict) :
    pass1 lines m = applyAll m (lines.filterMap pass1Line) := by
  induction lines generalizing m with
  | nil => rfl
  | cons ln rest ih =>
      cases h : pass1Line ln with
      | some kv =>
          have e1 : pass1 (ln :: rest) m = pass1 rest (dictInsert m kv.1 kv.2) := by
            simp [pass1, h]
          rw [e1, ih, List.filterMap_cons, h, applyAll_cons]
      | none =>
          have e1 : pass1 (ln :: rest) m = pass1 rest m := by simp [pass1, h]
          rw [e1, ih, List.filterMap_cons, h]

/-! ### Claims -/

/-- C1: totality — `parse_key_values` is a total function on strings:
every input (in particular the empty string, a whitespace-only string
and a string matching no pattern) is mapped to a unique
string-to-string map, and the worst case is the empty map. -/
theorem claim_C1 :
    (∀ s : String, ∃ m : Dict, parse_key_values s = m) ∧
    parse_key_values "" = [] ∧
    parse_key_values "   \n\t\n  " = [] ∧
    parse_key_values "no matching pattern here!" = [] := by
  refine ⟨fun s => ⟨parse_key_values s, rfl⟩, ?_, ?_, ?_⟩ <;> decide

/-- C3: pass-1 last-wins overwrite — the value that pass 1 stores under
a key is the one contributed by the last matching line with that key
(earlier entries, including anything already in the map, are
overwritten); concretely, for the two lines `Village: A` then
`Village: B` the result maps `Village` to `B`. -/
theorem claim_C3 :
    (∀ (lines : List String) (m : Dict) (k : String),
      dictGet? (pass1 lines m) k =
        (lastVal (lines.filterMap pass1Line) k).or (dictGet? m k)) ∧
    dictGet? (parse_key_values "Village: A\nVillage: B") "Village" = some "B" := by
  constructor
  · intro lines m k
    rw [pass1_eq_applyAll, dictGet?_applyAll]
  · decide

/-- C4: heading lookahead example — preprocessing drops the blank line
of `"Name of the claimant(s)\n\nRavi Kumar Bhuyan\nother"`, and the
result maps the heading line `Name of the claimant(s)` to
`Ravi Kumar Bhuyan`, the first non-empty line in the lookahead
window. -/
theorem claim_C4 :
    pyLines "Name of the claimant(s)\n\nRavi Kumar Bhuyan\nother" =
      ["Name of the claimant(s)", "Ravi Kumar Bhuyan", "other"] ∧
    dictGet? (parse_key_values "Name of the claimant(s)\n\nRavi Kumar Bhuyan\nother")
      "Name of the claimant(s)" = some "Ravi Kumar Bhuyan" := by
  constructor <;> decide

theorem foldl_applyAll {α : Type} (g : α → List (String × String)) :
    ∀ (L : List α) (m : Dict),
      L.foldl (fun m x => applyAll m (g x)) m = applyAll m (L.flatMap g) := by
  intro L
  induction L with
  | nil => intro m; rfl
  | cons x rest ih =>
      intro m
      rw [List.foldl_cons, List.flatMap_cons, applyAll_append]
      exact ih _

theorem pass2Step_eq_applyAll (lines : List String) (m : Dict) (i : Nat) (ln : String) :
    pass2Step lines m i ln = applyAll m (headingInserts lines i ln) := by
  unfold pass2Step headingInserts
  by_cases hlen : (3 < ln.length && ln.length < 120) = true
  · rw [if_pos hlen, if_pos hlen]
    have hstep : (fun (m : Dict) (h : String) =>
          if containsSub h.data (pyLower ln).data then
            match firstCand lines i with
            | some c => dictInsert m ln c
            | none => m
          else m) =
        (fun (m : Dict) (h : String) =>
          applyAll m
            (if containsSub h.data (pyLower ln).data then
              match firstCand lines i with
              | some c => [(ln, c)]
              | none => []
            else [])) := by
      funext m h
      by_cases hcs : containsSub h.data (pyLower ln).data
      · cases firstCand lines i <;> simp [hcs, applyAll]
      · simp [hcs, applyAll]
    rw [hstep, foldl_applyAll]
  · rw [if_neg hlen, if_neg hlen]
    rfl

theorem pass2_eq_applyAll (lines : List String) (m : Dict) :
    pass2 lines m = applyAll m (pass2Seq lines) := by
  unfold pass2 pass2Seq
  have hstep : (fun (m : Dict) (p : Nat × String) => pass2Step lines m p.1 p.2) =
      (fun (m : Dict) (p : Nat × String) => applyAll m (headingInserts lines p.1 p.2)) := by
    funext m p
    exact pass2Step_eq_applyAll lines m p.1 p.2
  rw [hstep, foldl_applyAll]

theorem dictInsert_idem (m : Dict) (k v : String) :
    dictInsert (dictInsert m k v) k v = dictInsert m k v := by
  induction m with
  | nil => simp [dictInsert]
  | cons p rest ih =>
      by_cases h : p.1 = k
      · simp [dictInsert, beq_iff_eq, h]
      · simp [dictInsert, beq_iff_eq, h, ih]

/-- C2: fallback gating — pass 3 decides the result exactly when the
map built by passes 1 and 2 is empty, and otherwise the result is that
map unchanged; in particular an input whose second line is a keyword
line gets no `misc` entry because pass 1 already produced an entry. -/
theorem claim_C2 :
    (∀ s : String,
      parse_key_values s =
        (if pass2 (pyLines s) (pass1 (pyLines s) []) = [] then pass3 (pyLines s)
         else pass2 (pyLines s) (pass1 (pyLines s) []))) ∧
    kwSearch "Total area claimed is 2.5 hectares" = true ∧
    parse_key_values "Village: X\nTotal area claimed is 2.5 hectares" ≠ [] ∧
    dictGet? (parse_key_values "Village: X\nTotal area claimed is 2.5 hectares")
      "misc" = none := by
  refine ⟨?_, by decide, by decide, by decide⟩
  intro s
  by_cases h : pass2 (pyLines s) (pass1 (pyLines s) []) = []
  · simp [parse_key_values, h]
  · simp [parse_key_values, h, List.isEmpty_iff]

/-- C5: fallback example and general shape — on the single keyword line
the result is exactly the `misc` singleton, and whenever passes 1-2
yield the empty map the result is the `misc` join of the
keyword-matching lines among the first 200 (empty map if none
match). -/
theorem claim_C5 :
    parse_key_values "Total area claimed is 2.5 hectares" =
      [("misc", "Total area claimed is 2.5 hectares")] ∧
    (∀ s : String,
      pass2 (pyLines s) (pass1 (pyLines s) []) = [] →
      parse_key_values s =
        (if ((pyLines s).take 200).filter kwSearch = [] then []
         else [("misc",
            pyJoin "; " (((pyLines s).take 200).filter kwSearch))])) := by
  refine ⟨by decide, ?_⟩
  intro s h
  by_cases h2 : ((pyLines s).take 200).filter kwSearch = []
  · simp [parse_key_values, h, pass3, h2]
  · simp [parse_key_values, h, pass3, h2, List.isEmpty_iff]

theorem claim_C5_witness :
    pass2 (pyLines "Survey number 12") (pass1 (pyLines "Survey number 12") []) = [] ∧
    parse_key_values "Survey number 12" =
      (if ((pyLines "Survey number 12").take 200).filter kwSearch = [] then []
       else [("misc",
          pyJoin "; "
            (((pyLines "Survey number 12").take 200).filter kwSearch))]) :=
  ⟨by decide, claim_C5.2 "Survey number 12" (by decide)⟩

/-- C6: pass-1 key-length boundary — a key candidate of exactly 80
allowed characters matches pass 1, while one of 81 characters does not
produce a pass-1 match on that line, and on such input the whole
extractor finds nothing at all. -/
theorem claim_C6 :
    pass1Line (String.mk (List.replicate 80 'a' ++ (": v").data)) =
      some (String.mk (List.replicate 80 'a'), "v") ∧
    pass1Line (String.mk (List.replicate 81 'a' ++ (": v").data)) = none ∧
    parse_key_values (String.mk (List.replicate 81 'a' ++ (": v").data)) = [] := by
  refine ⟨?_, ?_, ?_⟩ <;> decide

theorem find?_eq_some_index {α : Type} (p : α → Bool) :
    ∀ (l : List α) (c : α), l.find? p = some c →
      ∃ j, j < l.length ∧ l.get? j = some c ∧ p c = true ∧
        ∀ j' d, j' < j → l.get? j' = some d → p d = false := by
  intro l
  induction l with
  | nil => intro c h; cases h
  | cons a rest ih =>
      intro c h
      rw [List.find?_cons] at h
      cases hp : p a
      · simp only [hp] at h
        obtain ⟨j, hj, hget, hpc, hmin⟩ := ih c h
        refine ⟨j + 1, by simpa using hj, by simpa using hget, hpc, ?_⟩
        intro j' d hj' hget'
        cases j' with
        | zero =>
            rw [List.get?_cons_zero] at hget'
            cases hget'
            exact hp
        | succ j'' =>
            rw [List.get?_cons_succ] at hget'
            exact hmin j'' d (by omega) hget'
      · simp only [hp] at h
        cases h
        refine ⟨0, by simp, by simp, hp, ?_⟩
        intro j' d hj' _
        omega

theorem foldl_const {α β : Type} (f : β → α → β) (hs : List α) (m : β)
    (hf : ∀ m x, f m x = m) : hs.foldl f m = m := by
  induction hs generalizing m with
  | nil => rfl
  | cons x rest ih =>
      rw [List.foldl_cons, hf]
      exact ih m

set_option maxRecDepth 8192 in
/-- C7: heading lookahead bound — the lookahead inspects only lines
`i+1` through `i+5`, a returned candidate is the first line in that
window with length strictly between 0 and 200, and when the window has
no such line the pass-2 step leaves the map unchanged (concretely, a
heading followed only by a 200-character line yields no entry). -/
theorem claim_C7 :
    (∀ (lines : List String) (i : Nat),
        firstCand (lines.take (i + 6)) i = firstCand lines i) ∧
    (∀ (lines : List String) (i : Nat) (c : String),
        firstCand lines i = some c →
        (0 < c.length ∧ c.length < 200) ∧
        ∃ j, i + 1 ≤ j ∧ j < min (i + 6) lines.length ∧ lines.get? j = some c ∧
          ∀ j' d, i + 1 ≤ j' → j' < j → lines.get? j' = some d →
            ¬(0 < d.length ∧ d.length < 200)) ∧
    (∀ (lines : List String) (m : Dict) (i : Nat) (ln : String),
        firstCand lines i = none → pass2Step lines m i ln = m) ∧
    parse_key_values ("district\n" ++ String.mk (List.replicate 200 'x')) = [] := by
  refine ⟨?_, ?_, ?_, by decide⟩
  · intro lines i
    unfold firstCand
    rw [List.drop_take, List.take_take]
    have h5 : i + 6 - (i + 1) = 5 := by omega
    rw [h5, Nat.min_self]
  · intro lines i c h
    unfold firstCand at h
    obtain ⟨jw, hjw, hget, hpc, hmin⟩ := find?_eq_some_index _ _ c h
    have hlen : ((lines.drop (i + 1)).take 5).length =
        min 5 (lines.length - (i + 1)) := by
      rw [List.length_take, List.length_drop]
    rw [hlen] at hjw
    have hjw5 : jw < 5 := by omega
    have hget2 : lines.get? (i + 1 + jw) = some c := by
      rw [List.get?_take hjw5, List.get?_drop] at hget
      exact hget
    have hc : 0 < c.length ∧ c.length < 200 := by
      simpa [Bool.and_eq_true, decide_eq_true_eq] using hpc
    refine ⟨hc, i + 1 + jw, by omega, by omega, hget2, ?_⟩
    intro j' d hj1 hj2 hget'
    have hjw' : j' - (i + 1) < jw := by omega
    have hgetw : ((lines.drop (i + 1)).take 5).get? (j' - (i + 1)) = some d := by
      rw [List.get?_take (by omega), List.get?_drop]
      have : i + 1 + (j' - (i + 1)) = j' := by omega
      rw [this]
      exact hget'
    have := hmin (j' - (i + 1)) d hjw' hgetw
    simpa [Bool.and_eq_true, decide_eq_true_eq] using this
  · intro lines m i ln h
    unfold pass2Step
    by_cases hlen : (3 < ln.length && ln.length < 120) = true
    · rw [if_pos hlen]
      apply foldl_const
      intro m2 h2
      cases hcs : containsSub h2.data (pyLower ln).data <;> simp [h, hcs]
    · rw [if_neg hlen]

theorem claim_C7_witness :
    pass2Step ["village"] [] 0 "village" = [] ∧
    ((0 < "Ravi Kumar".length ∧ "Ravi Kumar".length < 200) ∧
      ∃ j, 0 + 1 ≤ j ∧ j < min (0 + 6) (["head", "Ravi Kumar"] : List String).length ∧
        (["head", "Ravi Kumar"] : List String).get? j = some "Ravi Kumar" ∧
        ∀ j' d, 0 + 1 ≤ j' → j' < j →
          (["head", "Ravi Kumar"] : List String).get? j' = some d →
          ¬(0 < d.length ∧ d.length < 200)) :=
  ⟨claim_C7.2.2.1 ["village"] [] 0 "village" (by decide),
   claim_C7.2.1 ["head", "Ravi Kumar"] 0 "Ravi Kumar" (by decide)⟩

/-- C8: cross-pass overlay — on any line list, running pass 2 on top of
the pass-1 map gives, key for key, the pass-2-from-empty value if pass 2
wrote that key and the pass-1 value otherwise (pass 2 overlays pass 1);
concretely, a key written by both passes keeps the pass-2 value. -/
theorem claim_C8 :
    (∀ (lines : List String) (k : String),
      dictGet? (pass2 lines (pass1 lines [])) k =
        (dictGet? (pass2 lines []) k).or (dictGet? (pass1 lines []) k)) ∧
    pass1Line "village - x" = some ("village", "x") ∧
    dictGet? (parse_key_values "village - x\nvillage\nBodo") "village" = some "Bodo" := by
  refine ⟨?_, by decide, by decide⟩
  intro lines k
  rw [pass2_eq_applyAll, pass2_eq_applyAll, dictGet?_applyAll, dictGet?_applyAll]
  cases lastVal (pass2Seq lines) k <;> simp [Option.or, dictGet?]

theorem foldl_insert_first_match (lines : List String) (i : Nat) (ln : String) :
    ∀ (hs : List String) (m : Dict),
      hs.foldl (fun m h =>
        if containsSub h.data (pyLower ln).data then
          match firstCand lines i with
          | some c => dictInsert m ln c
          | none => m
        else m) m =
      (match hs.find? (fun h => containsSub h.data (pyLower ln).data) with
       | some _ =>
          match firstCand lines i with
          | some c => dictInsert m ln c
          | none => m
       | none => m) := by
  intro hs
  induction hs with
  | nil => intro m; rfl
  | cons h rest ih =>
      intro m
      rw [List.foldl_cons, List.find?_cons]
      cases hp : containsSub h.data (pyLower ln).data
      · simp only [hp, Bool.false_eq_true, if_false]
        exact ih m
      · simp only [hp, if_true]
        rw [ih]
        cases hf : rest.find? (fun h => containsSub h.data (pyLower ln).data)
        · rfl
        · cases hcand : firstCand lines i
          · rfl
          · exact dictInsert_idem m ln _

/-- C9: pass-2 first-phrase-only — pass 2 computes the same map as the
variant that, per line, uses only the first heading phrase of the
dictionary contained in the lowercased line: the repeated insertions
performed for later matching phrases are idempotent. -/
theorem claim_C9 : ∀ (lines : List String) (m : Dict),
    pass2 lines m = pass2FirstMatch lines m := by
  intro lines m
  unfold pass2 pass2FirstMatch
  have hstep : (fun (m : Dict) (p : Nat × String) => pass2Step lines m p.1 p.2) =
      (fun (m : Dict) (p : Nat × String) => pass2StepFirstMatch lines m p.1 p.2) := by
    funext m p
    unfold pass2Step pass2StepFirstMatch
    by_cases hlen : (3 < p.2.length && p.2.length < 120) = true
    · rw [if_pos hlen, if_pos hlen]
      rw [foldl_insert_first_match lines p.1 p.2 headings m]
    · rw [if_neg hlen, if_neg hlen]
  rw [hstep]

/-! ### Lemmas about stripping, towards the trimming invariant -/

theorem dropWhile_head_false {α : Type} (p : α → Bool) :
    ∀ (l : List α) (a : α) (rest : List α), l.dropWhile p = a :: rest → p a = false := by
  intro l
  induction l with
  | nil => intro a rest h; cases h
  | cons x xs ih =>
      intro a rest h
      rw [List.dropWhile_cons] at h
      cases hx : p x
      · rw [hx] at h
        simp only [Bool.false_eq_true, if_false] at h
        cases h
        exact hx
      · rw [hx] at h
        simp only [if_true] at h
        exact ih a rest h

theorem mem_of_getLast?_eq_some {α : Type} (l : List α) (a : α)
    (h : l.getLast? = some a) : a ∈ l := by
  rw [List.getLast?_eq_head?_reverse] at h
  cases hr : l.reverse with
  | nil => rw [hr] at h; cases h
  | cons b tl =>
      rw [hr, List.head?_cons] at h
      cases h
      have hmem : a ∈ l.reverse := by rw [hr]; exact List.mem_cons_self a tl
      exact List.mem_reverse.mp hmem

theorem getLast?_append_right {α : Type} (t l : List α) (h : l ≠ []) :
    (t ++ l).getLast? = l.getLast? := by
  rw [List.getLast?_eq_head?_reverse, List.getLast?_eq_head?_reverse,
    List.reverse_append, List.head?_append]
  cases hr : l.reverse with
  | nil => exact absurd (List.reverse_eq_nil_iff.mp hr) h
  | cons b tl => simp [Option.or]

theorem getLast?_dropWhile {α : Type} (p : α → Bool) (l : List α)
    (h : l.dropWhile p ≠ []) : (l.dropWhile p).getLast? = l.getLast? := by
  conv_rhs => rw [← List.takeWhile_append_dropWhile p l]
  rw [getLast?_append_right _ _ h]

theorem getLast?_drop {α : Type} (n : Nat) (l : List α) (h : l.drop n ≠ []) :
    (l.drop n).getLast? = l.getLast? := by
  conv_rhs => rw [← List.take_append_drop n l]
  rw [getLast?_append_right _ _ h]

theorem pyStripList_head?_not_space (cs : List Char) (a : Char)
    (h : (pyStripList cs).head? = some a) : isSpace a = false := by
  unfold pyStripList at h
  rw [List.head?_eq_getLast?_reverse, List.reverse_reverse] at h
  have hXne : (cs.dropWhile isSpace).reverse.dropWhile isSpace ≠ [] := by
    intro he
    rw [he] at h
    cases h
  rw [getLast?_dropWhile _ _ hXne, List.getLast?_reverse] at h
  cases hd : cs.dropWhile isSpace with
  | nil => rw [hd] at h; cases h
  | cons b tl =>
      rw [hd, List.head?_cons] at h
      cases h
      exact dropWhile_head_false isSpace cs a tl hd

theorem pyStripList_getLast?_not_space (cs : List Char) (a : Char)
    (h : (pyStripList cs).getLast? = some a) : isSpace a = false := by
  unfold pyStripList at h
  rw [List.getLast?_reverse] at h
  cases hd : (cs.dropWhile isSpace).reverse.dropWhile isSpace with
  | nil => rw [hd] at h; cases h
  | cons b tl =>
      rw [hd, List.head?_cons] at h
      cases h
      exact dropWhile_head_false isSpace _ a tl hd

theorem pyStripList_eq_self (cs : List Char)
    (h1 : ∀ a, cs.head? = some a → isSpace a = false)
    (h2 : ∀ a, cs.getLast? = some a → isSpace a = false) :
    pyStripList cs = cs := by
  cases cs with
  | nil => rfl
  | cons a rest =>
      have ha : isSpace a = false := h1 a rfl
      unfold pyStripList
      rw [List.dropWhile_cons, if_neg (by simp [ha])]
      cases hr : (a :: rest).reverse with
      | nil => exact absurd (List.reverse_eq_nil_iff.mp hr) (by simp)
      | cons b tl =>
          have hb : isSpace b = false := by
            apply h2
            rw [List.getLast?_eq_head?_reverse, hr, List.head?_cons]
          rw [List.dropWhile_cons, if_neg (by simp [hb]), ← hr,
            List.reverse_reverse]

theorem pyStripList_idem (cs : List Char) :
    pyStripList (pyStripList cs) = pyStripList cs :=
  pyStripList_eq_self _ (pyStripList_head?_not_space cs) (pyStripList_getLast?_not_space cs)

theorem pyStripList_ne_nil (cs : List Char) (a : Char) (ha : a ∈ cs)
    (hna : isSpace a = false) : pyStripList cs ≠ [] := by
  intro he
  unfold pyStripList at he
  rw [List.reverse_eq_nil_iff, List.dropWhile_eq_nil_iff] at he
  have hmem : a ∈ cs.dropWhile isSpace := by
    have hsplit := List.takeWhile_append_dropWhile isSpace cs
    rcases List.mem_append.mp (by rw [hsplit]; exact ha) with hin | hin
    · exact absurd (List.mem_takeWhile_imp hin) (by simp [hna])
    · exact hin
  exact absurd (he a (List.mem_reverse.mpr hmem)) (by simp [hna])

theorem wellTrimmed_data (s : String) (h : wellTrimmed s) :
    s.data ≠ [] ∧ pyStripList s.data = s.data := by
  obtain ⟨hne, hstrip⟩ := h
  constructor
  · intro he
    exact hne (String.ext he)
  · have hd := congrArg String.data hstrip
    simpa [pyStrip] using hd

theorem wellTrimmed_mk_strip (cs : List Char) (h : pyStripList cs ≠ []) :
    wellTrimmed (String.mk (pyStripList cs)) := by
  constructor
  · intro he
    exact h (by simpa [String.ext_iff] using he)
  · show String.mk (pyStripList (pyStripList cs)) = String.mk (pyStripList cs)
    rw [pyStripList_idem]

theorem wellTrimmed_head_last (s : String) (h : wellTrimmed s) :
    s.data ≠ [] ∧ (∀ a, s.data.head? = some a → isSpace a = false) ∧
      (∀ a, s.data.getLast? = some a → isSpace a = false) := by
  obtain ⟨hne, hstrip⟩ := wellTrimmed_data s h
  refine ⟨hne, ?_, ?_⟩
  · intro a ha
    exact pyStripList_head?_not_space s.data a (by rw [hstrip]; exact ha)
  · intro a ha
    exact pyStripList_getLast?_not_space s.data a (by rw [hstrip]; exact ha)

theorem pass1Line_wellTrimmed (ln : String) (hwt : wellTrimmed ln) (k v : String)
    (h : pass1Line ln = some (k, v)) : wellTrimmed k ∧ wellTrimmed v := by
  obtain ⟨hne, hhead, hlast⟩ := wellTrimmed_head_last ln hwt
  have hlastchar : ∃ b, ln.data.getLast? = some b ∧ isSpace b = false := by
    cases hr : ln.data.reverse with
    | nil => exact absurd (List.reverse_eq_nil_iff.mp hr) hne
    | cons b tl =>
        have hgb : ln.data.getLast? = some b := by
          rw [List.getLast?_eq_head?_reverse, hr, List.head?_cons]
        exact ⟨b, hgb, hlast b hgb⟩
  obtain ⟨b, hgb, hb⟩ := hlastchar
  have htake : ln.data.takeWhile isSpace = [] := by
    cases hcs : ln.data with
    | nil => rfl
    | cons a rest =>
        have ha : isSpace a = false := hhead a (by rw [hcs]; rfl)
        rw [List.takeWhile_cons, if_neg (by simp [ha])]
  have h0 : pass1Line ln =
      (matchAtW ln.data 0).map (fun g =>
        (String.mk (pyStripList g.1), String.mk (pyStripList g.2))) := by
    have hr1 : (List.range 1).reverse = [0] := by decide
    simp only [pass1Line, htake, List.length_nil, Nat.zero_add, hr1,
      List.findSome?_cons, List.findSome?_nil]
    cases hm : (matchAtW ln.data 0).map (fun g =>
        (String.mk (pyStripList g.1), String.mk (pyStripList g.2))) with
    | some x => rfl
    | none => rfl
  rw [h0, Option.map_eq_some'] at h
  obtain ⟨g, hg, hF⟩ := h
  cases hF
  unfold matchAtW at hg
  obtain ⟨kk, hkkmem, htry⟩ := List.exists_of_findSome?_eq_some hg
  have hkk2 : 2 ≤ kk := by
    rw [List.mem_map] at hkkmem
    obtain ⟨j, _, rfl⟩ := hkkmem
    omega
  simp only [tryKeyLen] at htry
  rw [List.drop_zero] at htry
  split at htry
  case isFalse => cases htry
  case isTrue hcond =>
  split at htry
  case h_2 => cases htry
  case h_1 c heq =>
  split at htry
  case isFalse => cases htry
  case isTrue hsep =>
  rw [Option.map_eq_some'] at htry
  obtain ⟨g2, haft, hpair⟩ := htry
  cases hpair
  rw [Bool.and_eq_true, decide_eq_true_eq] at hcond
  obtain ⟨hklen, hkall⟩ := hcond
  constructor
  · -- the key group starts with the non-space head of the line
    cases hcs : ln.data with
    | nil =>
        rw [hcs] at hklen
        simp at hklen
        omega
    | cons a rest =>
        have ha : isSpace a = false := hhead a (by rw [hcs]; rfl)
        have hamem : a ∈ List.take kk (a :: rest) := by
          cases kk with
          | zero => omega
          | succ kk2 => rw [List.take_succ_cons]; exact List.mem_cons_self _ _
        exact wellTrimmed_mk_strip _ (pyStripList_ne_nil _ a hamem ha)
  · -- the value group ends with the non-space last character of the line
    simp only [afterSep] at haft
    split at haft
    case isTrue => cases haft
    case isFalse hrne =>
    rw [List.isEmpty_iff] at hrne
    have hglast : (ln.data.drop (0 + kk +
        ((ln.data.drop (0 + kk)).takeWhile isSpace).length + 1)).getLast? = some b := by
      rw [getLast?_drop _ _ hrne]
      exact hgb
    split at haft
    case isTrue hall =>
        exfalso
        rw [List.isEmpty_iff, List.dropWhile_eq_nil_iff] at hall
        have hbmem := mem_of_getLast?_eq_some _ b hglast
        rw [hall b hbmem] at hb
        cases hb
    case isFalse hnall =>
        cases haft
        rw [List.isEmpty_iff] at hnall
        have hg2last : (List.dropWhile isSpace (ln.data.drop (0 + kk +
            ((ln.data.drop (0 + kk)).takeWhile isSpace).length + 1))).getLast? =
              some b := by
          rw [getLast?_dropWhile _ _ hnall]
          exact hglast
        have hbmem := mem_of_getLast?_eq_some _ b hg2last
        exact wellTrimmed_mk_strip _ (pyStripList_ne_nil _ b hbmem hb)

theorem pyLines_wellTrimmed (text : String) :
    ∀ l ∈ pyLines text, wellTrimmed l := by
  intro l hl
  unfold pyLines at hl
  rw [List.mem_filter] at hl
  obtain ⟨hmem, hne⟩ := hl
  rw [List.mem_map] at hmem
  obtain ⟨cs, _, rfl⟩ := hmem
  apply wellTrimmed_mk_strip
  intro he
  rw [he] at hne
  have hmk : String.mk ([] : List Char) = "" := String.ext rfl
  rw [hmk] at hne
  simp at hne

theorem dictInsert_forall (P : String × String → Prop) (k v : String) (hkv : P (k, v)) :
    ∀ (m : Dict), (∀ p ∈ m, P p) → ∀ p ∈ dictInsert m k v, P p := by
  intro m
  induction m with
  | nil =>
      intro _ p hp
      simp only [dictInsert, List.mem_singleton] at hp
      subst hp
      exact hkv
  | cons q rest ih =>
      intro hm p hp
      simp only [dictInsert] at hp
      by_cases hq : (q.1 == k) = true
      · rw [if_pos hq] at hp
        rcases List.mem_cons.mp hp with rfl | hp2
        · exact hkv
        · exact hm p (List.mem_cons_of_mem q hp2)
      · rw [if_neg hq] at hp
        rcases List.mem_cons.mp hp with rfl | hp2
        · exact hm p (List.mem_cons_self p rest)
        · exact ih (fun r hr => hm r (List.mem_cons_of_mem q hr)) p hp2

theorem pass1_forall (P : String × String → Prop)
    (hP : ∀ ln k v, wellTrimmed ln → pass1Line ln = some (k, v) → P (k, v)) :
    ∀ (lines : List String), (∀ l ∈ lines, wellTrimmed l) →
      ∀ (m : Dict), (∀ p ∈ m, P p) → ∀ p ∈ pass1 lines m, P p := by
  intro lines
  induction lines with
  | nil => intro _ m hm p hp; exact hm p hp
  | cons ln rest ih =>
      intro hl m hm p hp
      cases hln : pass1Line ln with
      | none =>
          refine ih (fun l hl2 => hl l (List.mem_cons_of_mem ln hl2)) m hm p ?_
          simpa [pass1, List.foldl_cons, hln] using hp
      | some kv =>
          have hkv : P kv := by
            have := hP ln kv.1 kv.2 (hl ln (List.mem_cons_self ln rest))
              (by rw [hln])
            simpa using this
          refine ih (fun l hl2 => hl l (List.mem_cons_of_mem ln hl2))
            (dictInsert m kv.1 kv.2)
            (dictInsert_forall P kv.1 kv.2 (by simpa using hkv) m hm) p ?_
          simpa [pass1, List.foldl_cons, hln] using hp

theorem firstCand_mem (lines : List String) (i : Nat) (c : String)
    (h : firstCand lines i = some c) : c ∈ lines := by
  unfold firstCand at h
  have hmem := List.mem_of_find?_eq_some h
  exact List.drop_subset _ _ (List.take_subset _ _ hmem)

theorem foldl_guard_insert_forall (P : String × String → Prop) (ln c : String)
    (hP : P (ln, c)) (q : String → Bool) :
    ∀ (hs : List String) (m : Dict), (∀ p ∈ m, P p) →
      ∀ p ∈ hs.foldl (fun m h => if q h then dictInsert m ln c else m) m, P p := by
  intro hs
  induction hs with
  | nil => intro m hm p hp; exact hm p hp
  | cons h rest ih =>
      intro m hm p hp
      rw [List.foldl_cons] at hp
      cases hq : q h
      · rw [hq] at hp
        simp only [Bool.false_eq_true, if_false] at hp
        exact ih m hm p hp
      · rw [hq] at hp
        simp only [if_true] at hp
        exact ih (dictInsert m ln c) (dictInsert_forall P ln c hP m hm) p hp

theorem pass2Step_forall (P : String × String → Prop) (lines : List String)
    (hP : ∀ ln c, ln ∈ lines → c ∈ lines → P (ln, c)) (i : Nat) (ln : String)
    (hln : ln ∈ lines) :
    ∀ (m : Dict), (∀ p ∈ m, P p) → ∀ p ∈ pass2Step lines m i ln, P p := by
  intro m hm p hp
  simp only [pass2Step] at hp
  by_cases hlen : (3 < ln.length && ln.length < 120) = true
  · rw [if_pos hlen] at hp
    cases hcand : firstCand lines i with
    | none =>
        simp only [hcand, ite_self] at hp
        rw [foldl_const _ _ _ (fun m2 x => rfl)] at hp
        exact hm p hp
    | some c =>
        simp only [hcand] at hp
        exact foldl_guard_insert_forall P ln c
          (hP ln c hln (firstCand_mem lines i c hcand)) _ headings m hm p hp
  · rw [if_neg hlen] at hp
    exact hm p hp

theorem pass2_forall (P : String × String → Prop) (lines : List String)
    (hP : ∀ ln c, ln ∈ lines → c ∈ lines → P (ln, c)) :
    ∀ (m : Dict), (∀ p ∈ m, P p) → ∀ p ∈ pass2 lines m, P p := by
  have henum : ∀ q ∈ lines.enum, q.2 ∈ lines := by
    intro q hq
    have hmap : q.2 ∈ (lines.enum).map Prod.snd := List.mem_map_of_mem Prod.snd hq
    rw [List.enum_map_snd] at hmap
    exact hmap
  suffices hgen : ∀ (L : List (Nat × String)), (∀ q ∈ L, q.2 ∈ lines) →
      ∀ (m : Dict), (∀ p ∈ m, P p) →
        ∀ p ∈ L.foldl (fun m q => pass2Step lines m q.1 q.2) m, P p by
    intro m hm p hp
    exact hgen lines.enum henum m hm p hp
  intro L
  induction L with
  | nil => intro _ m hm p hp; exact hm p hp
  | cons q rest ih =>
      intro hq m hm p hp
      rw [List.foldl_cons] at hp
      exact ih (fun r hr => hq r (List.mem_cons_of_mem q hr))
        (pass2Step lines m q.1 q.2)
        (pass2Step_forall P lines hP q.1 q.2 (hq q (List.mem_cons_self q rest)) m hm)
        p hp

theorem pyJoin_wellTrimmed : ∀ (ls : List String), ls ≠ [] →
    (∀ l ∈ ls, wellTrimmed l) → wellTrimmed (pyJoin "; " ls) := by
  intro ls
  induction ls with
  | nil => intro h; exact absurd rfl h
  | cons a rest ih =>
      intro _ hl
      cases rest with
      | nil =>
          have hone : pyJoin "; " [a] = a := by simp [pyJoin]
          rw [hone]
          exact hl a (List.mem_cons_self a [])
      | cons b tl =>
          have hrest : wellTrimmed (pyJoin "; " (b :: tl)) :=
            ih (by simp) (fun l hl2 => hl l (List.mem_cons_of_mem a hl2))
          have hjoin : pyJoin "; " (a :: b :: tl) =
              a ++ "; " ++ pyJoin "; " (b :: tl) := by
            simp [pyJoin]
          obtain ⟨hane, hahead, halast⟩ :=
            wellTrimmed_head_last a (hl a (List.mem_cons_self a (b :: tl)))
          obtain ⟨hjne, hjhead, hjlast⟩ := wellTrimmed_head_last _ hrest
          rw [hjoin]
          have hdata : (a ++ "; " ++ pyJoin "; " (b :: tl)).data =
              a.data ++ ("; ".data ++ (pyJoin "; " (b :: tl)).data) := by
            rw [String.data_append, String.data_append, List.append_assoc]
          have hfix : pyStripList ((a ++ "; " ++ pyJoin "; " (b :: tl)).data) =
              (a ++ "; " ++ pyJoin "; " (b :: tl)).data := by
            apply pyStripList_eq_self
            · intro x hx
              rw [hdata, List.head?_append] at hx
              apply hahead x
              cases hha : a.data.head? with
              | none =>
                  exfalso
                  cases hda : a.data with
                  | nil => exact hane hda
                  | cons y ys => rw [hda, List.head?_cons] at hha; cases hha
              | some y =>
                  rw [hha] at hx
                  simp only [Option.or] at hx
                  exact hx
            · intro x hx
              rw [hdata] at hx
              have hne2 : ("; ".data ++ (pyJoin "; " (b :: tl)).data) ≠ [] := by
                intro he
                exact hjne (List.append_eq_nil.mp he).2
              rw [getLast?_append_right _ _ hne2,
                getLast?_append_right _ _ hjne] at hx
              exact hjlast x hx
          constructor
          · intro he
            rw [String.ext_iff, hdata] at he
            exact hane (List.append_eq_nil.mp he).1
          · exact String.ext (by show pyStripList _ = _; rw [hfix])

/-- C10: implicit trimming invariant — every key and every value in any
map returned by `parse_key_values` is a non-empty string with no
leading or trailing whitespace. -/
theorem claim_C10 (s : String) (k v : String) (h : (k, v) ∈ parse_key_values s) :
    wellTrimmed k ∧ wellTrimmed v := by
  have hl := pyLines_wellTrimmed s
  simp only [parse_key_values] at h
  split at h
  · -- pass-3 branch
    simp only [pass3] at h
    split at h
    · cases h
    · rename_i hmisc
      rw [List.mem_singleton] at h
      cases h
      refine ⟨⟨by decide, by decide⟩, ?_⟩
      apply pyJoin_wellTrimmed
      · intro he
        rw [← List.isEmpty_iff] at he
        exact hmisc he
      · intro l hlmem
        rw [List.mem_filter] at hlmem
        exact hl l (List.take_subset _ _ hlmem.1)
  · -- passes 1-2 branch
    refine pass2_forall (fun p => wellTrimmed p.1 ∧ wellTrimmed p.2) (pyLines s)
      ?_ (pass1 (pyLines s) []) ?_ (k, v) h
    · intro ln c hln hc
      exact ⟨hl ln hln, hl c hc⟩
    · refine pass1_forall (fun p => wellTrimmed p.1 ∧ wellTrimmed p.2)
        ?_ (pyLines s) hl [] ?_
      · intro ln k2 v2 hwt2 hline
        exact pass1Line_wellTrimmed ln hwt2 k2 v2 hline
      · intro p hp
        cases hp

theorem claim_C10_witness :
    (("Village", "A") ∈ parse_key_values "Village: A") ∧
    wellTrimmed "Village" ∧ wellTrimmed "A" := by
  refine ⟨by decide, ?_⟩
  have h := claim_C10 "Village: A" "Village" "A" (by decide)
  exact ⟨h.1, h.2⟩

end TribalEye
